import Mathlib

/-!
Shallow embedding of `src/lib/util/manifest_filter.js` (shaka.util.ManifestFilter)
and proofs of its specified properties.

JavaScript strings are modelled as `List Char`; JS `null` for an absent stream
or field is modelled with `Option`.  The in-place mutation of periods' variant
lists is modelled by explicit state passing: each filter takes the manifest
value and returns the manifest value as mutated.  The async injected filter of
`rollingFilter` is modelled as a function from a period to the period state it
leaves behind together with an optional rejection value; `rollingFilter`
additionally returns the trace of period values handed to the injected filter,
so that "the filter was never invoked on period j" is expressible.
-/

namespace Shaka

/-- A stream (audio or video): mime type and dot-delimited codecs string. -/
structure Stream where
  mimeType : List Char
  codecs : List Char
deriving DecidableEq, Repr

/-- A variant: optional audio stream, optional video stream, plus other
fields (bandwidth) untouched by the filters. -/
structure Variant where
  audio : Option Stream
  video : Option Stream
  bandwidth : Int
deriving DecidableEq, Repr

/-- A period: its variant list plus other fields (startTime, textStreams)
untouched by the filters. -/
structure Period where
  startTime : Int
  variants : List Variant
  textStreams : List Stream
deriving DecidableEq, Repr

/-- A manifest: ordered periods plus another field (minBufferTime) untouched
by the filters. -/
structure Manifest where
  periods : List Period
  minBufferTime : Int
deriving DecidableEq, Repr

/-- JS `s.split('.')`: split a character list at every `'.'`.
Never returns the empty list (`"".split('.')` is `[""]`). -/
def splitOnDot : List Char → List (List Char)
  | [] => [[]]
  | c :: rest =>
    if c = '.' then
      [] :: splitOnDot rest
    else
      match splitOnDot rest with
      | [] => [[c]]
      | h :: t => (c :: h) :: t

namespace ManifestFilter

/-- `shaka.util.ManifestFilter.VariantCodecSummary`: the four-field summary of
a variant's codec information.  Field `xCodec_` is `codecs.split('.')[0]` of
the corresponding stream; absent streams give `none` fields. -/
structure VariantCodecSummary where
  audioMime_ : Option (List Char)
  audioCodec_ : Option (List Char)
  videoMime_ : Option (List Char)
  videoCodec_ : Option (List Char)
deriving DecidableEq, Repr

/-- The `VariantCodecSummary` constructor: summarize a variant. -/
def VariantCodecSummary.ofVariant (variant : Variant) : VariantCodecSummary :=
  let audio := variant.audio
  let video := variant.video
  { audioMime_ := audio.map (fun a => a.mimeType)
    audioCodec_ := audio.map (fun a => (splitOnDot a.codecs).headD [])
    videoMime_ := video.map (fun v => v.mimeType)
    videoCodec_ := video.map (fun v => (splitOnDot v.codecs).headD []) }

/-- `VariantCodecSummary.equals`: four-field structural comparison. -/
def VariantCodecSummary.equals (a other : VariantCodecSummary) : Bool :=
  a.audioMime_ == other.audioMime_ &&
  a.audioCodec_ == other.audioCodec_ &&
  a.videoMime_ == other.videoMime_ &&
  a.videoCodec_ == other.videoCodec_

/-- `shaka.util.ManifestFilter.VariantCodecSummarySet`: backed by array `all_`. -/
structure VariantCodecSummarySet where
  all_ : List VariantCodecSummary
deriving DecidableEq, Repr

/-- `contains`: `this.all_.some((x) => summary.equals(x))`. -/
def VariantCodecSummarySet.contains (s : VariantCodecSummarySet)
    (summary : VariantCodecSummary) : Bool :=
  s.all_.any (fun x => summary.equals x)

/-- `add`: push onto `all_` unless an equal element is already present. -/
def VariantCodecSummarySet.add (s : VariantCodecSummarySet)
    (summary : VariantCodecSummary) : VariantCodecSummarySet :=
  if s.contains summary then s else ⟨s.all_ ++ [summary]⟩

/-- `includeAll`: add every element of `other` to `this`. -/
def VariantCodecSummarySet.includeAll (s other : VariantCodecSummarySet) :
    VariantCodecSummarySet :=
  other.all_.foldl (fun acc item => acc.add item) s

/-- `onlyKeep`: keep only the elements of `this` contained in `other`. -/
def VariantCodecSummarySet.onlyKeep (s other : VariantCodecSummarySet) :
    VariantCodecSummarySet :=
  ⟨s.all_.filter (fun x => other.contains x)⟩

/-- `fromVariants`: build a set from the summaries of a variant list. -/
def VariantCodecSummarySet.fromVariants (variants : List Variant) :
    VariantCodecSummarySet :=
  variants.foldl (fun set variant => set.add (VariantCodecSummary.ofVariant variant)) ⟨[]⟩

/-- The intersection loop of `filterByCommonCodecs`: walk the periods keeping
the `first` flag, `includeAll` on the first period and `onlyKeep` after. -/
def commonLoop : VariantCodecSummarySet → Bool → List Period → VariantCodecSummarySet
  | common, _, [] => common
  | common, first, period :: rest =>
    let next := VariantCodecSummarySet.fromVariants period.variants
    if first then commonLoop (common.includeAll next) false rest
    else commonLoop (common.onlyKeep next) first rest

/-- `filterByCommonCodecs`: asserts at least one period (`none` models the
assertion firing), computes the common summary set, then filters every
period's variants by membership in it. -/
def filterByCommonCodecs (manifest : Manifest) : Option Manifest :=
  if manifest.periods.length > 0 then
    let common := commonLoop ⟨[]⟩ true manifest.periods
    some { manifest with
      periods := manifest.periods.map (fun period =>
        { period with
          variants := period.variants.filter (fun variant =>
            common.contains (VariantCodecSummary.ofVariant variant)) }) }
  else
    none

/-- The adjacency pruning of `rollingFilter`: drop the variants whose summary
the previous period's summary set does not contain. -/
def prunePeriod (prev : VariantCodecSummarySet) (period : Period) : Period :=
  { period with
    variants := period.variants.filter (fun variant =>
      prev.contains (VariantCodecSummary.ofVariant variant)) }

/-- `prunePeriod` lifted over the nullable `previous` (`if (previous)`). -/
def pruneOpt : Option VariantCodecSummarySet → Period → Period
  | none, period => period
  | some prev, period => prunePeriod prev period

/-- `rollingFilter`: walk the periods with the nullable `previous` set,
pruning each period against `previous`, awaiting the injected filter, and
recomputing `previous` from the filtered variants.  Returns the period list as
left in the manifest, the trace of period values passed to the injected
filter, and the rejection value if the injected filter failed. -/
def rollingFilter {E : Type} (filter : Period → Period × Option E) :
    Option VariantCodecSummarySet → List Period → List Period × List Period × Option E
  | _, [] => ([], [], none)
  | previous, period :: rest =>
    let pruned := pruneOpt previous period
    match filter pruned with
    | (filtered, some e) => (filtered :: rest, [pruned], some e)
    | (filtered, none) =>
      let next := VariantCodecSummarySet.fromVariants filtered.variants
      let result := rollingFilter filter (some next) rest
      (filtered :: result.1, pruned :: result.2.1, result.2.2)

/-! ### Basic lemmas about summaries and summary sets -/

/-- `equals` is the same as structural equality of the four fields. -/
theorem VariantCodecSummary.equals_iff_eq (a b : VariantCodecSummary) :
    a.equals b = true ↔ a = b := by
  cases a
  cases b
  simp [VariantCodecSummary.equals, VariantCodecSummary.mk.injEq, and_assoc]

/-- `contains` is list membership of `all_`. -/
theorem VariantCodecSummarySet.contains_iff_mem (s : VariantCodecSummarySet)
    (c : VariantCodecSummary) : s.contains c = true ↔ c ∈ s.all_ := by
  simp only [VariantCodecSummarySet.contains, List.any_eq_true]
  constructor
  · rintro ⟨x, hx, he⟩
    rwa [(VariantCodecSummary.equals_iff_eq c x).mp he]
  · intro h
    exact ⟨c, h, (VariantCodecSummary.equals_iff_eq c c).mpr rfl⟩

/-- Membership after `add`. -/
theorem VariantCodecSummarySet.mem_add (s : VariantCodecSummarySet)
    (x c : VariantCodecSummary) : c ∈ (s.add x).all_ ↔ c ∈ s.all_ ∨ c = x := by
  unfold VariantCodecSummarySet.add
  by_cases h : s.contains x = true
  · simp only [h, if_true]
    rw [VariantCodecSummarySet.contains_iff_mem] at h
    constructor
    · exact fun hc => Or.inl hc
    · rintro (hc | rfl)
      · exact hc
      · exact h
  · simp only [h]
    simp

/-- Membership after `foldl add`. -/
theorem VariantCodecSummarySet.mem_foldl_add (l : List VariantCodecSummary)
    (s : VariantCodecSummarySet) (c : VariantCodecSummary) :
    c ∈ (l.foldl (fun acc item => acc.add item) s).all_ ↔ c ∈ s.all_ ∨ c ∈ l := by
  induction l generalizing s with
  | nil => simp
  | cons x xs ih =>
    simp only [List.foldl_cons, ih, VariantCodecSummarySet.mem_add, List.mem_cons]
    tauto

/-- Membership after `includeAll` is union. -/
theorem VariantCodecSummarySet.mem_includeAll (s other : VariantCodecSummarySet)
    (c : VariantCodecSummary) :
    c ∈ (s.includeAll other).all_ ↔ c ∈ s.all_ ∨ c ∈ other.all_ :=
  VariantCodecSummarySet.mem_foldl_add other.all_ s c

/-- Membership after `onlyKeep` is intersection. -/
theorem VariantCodecSummarySet.mem_onlyKeep (s other : VariantCodecSummarySet)
    (c : VariantCodecSummary) :
    c ∈ (s.onlyKeep other).all_ ↔ c ∈ s.all_ ∧ other.contains c = true := by
  simp only [VariantCodecSummarySet.onlyKeep, List.mem_filter]

/-- Membership in `fromVariants` is membership among the variants' summaries. -/
theorem VariantCodecSummarySet.mem_fromVariants (variants : List Variant)
    (c : VariantCodecSummary) :
    c ∈ (VariantCodecSummarySet.fromVariants variants).all_ ↔
      c ∈ variants.map VariantCodecSummary.ofVariant := by
  have key : ∀ (l : List Variant) (s : VariantCodecSummarySet),
      c ∈ (l.foldl (fun set variant => set.add (VariantCodecSummary.ofVariant variant)) s).all_ ↔
        c ∈ s.all_ ∨ c ∈ l.map VariantCodecSummary.ofVariant := by
    intro l
    induction l with
    | nil => simp
    | cons v vs ih =>
      intro s
      simp only [List.foldl_cons, ih, VariantCodecSummarySet.mem_add, List.map_cons,
        List.mem_cons]
      tauto
  simpa using key variants ⟨[]⟩

/-- `contains` for `fromVariants`, phrased with `contains`. -/
theorem VariantCodecSummarySet.contains_fromVariants (variants : List Variant)
    (c : VariantCodecSummary) :
    (VariantCodecSummarySet.fromVariants variants).contains c = true ↔
      ∃ v ∈ variants, VariantCodecSummary.ofVariant v = c := by
  rw [VariantCodecSummarySet.contains_iff_mem, VariantCodecSummarySet.mem_fromVariants]
  simp [List.mem_map]

end ManifestFilter

/-! ### Lemmas about `splitOnDot` -/

/-- `split` never returns an empty array. -/
theorem splitOnDot_ne_nil (s : List Char) : splitOnDot s ≠ [] := by
  cases s with
  | nil => simp [splitOnDot]
  | cons c rest =>
    unfold splitOnDot
    by_cases h : c = '.'
    · simp [h]
    · simp only [h, if_false]
      cases splitOnDot rest <;> simp

/-- Splitting a string whose prefix before the first `'.'` is `a` puts `a`
first. -/
theorem splitOnDot_append (a b : List Char) (ha : '.' ∉ a) :
    splitOnDot (a ++ '.' :: b) = a :: splitOnDot b := by
  induction a with
  | nil => simp [splitOnDot]
  | cons c a ih =>
    have hc : c ≠ '.' := fun h => ha (h ▸ List.mem_cons_self c a)
    have ha' : '.' ∉ a := fun h => ha (List.mem_cons_of_mem c h)
    simp only [List.cons_append, splitOnDot, hc, if_false, List.append_eq, ih ha']

/-- `split('.')[0]` is exactly the characters before the first `'.'`. -/
theorem headD_splitOnDot_append (a b : List Char) (ha : '.' ∉ a) :
    (splitOnDot (a ++ '.' :: b)).headD [] = a := by
  rw [splitOnDot_append a b ha]
  rfl

/-- On a dot-free string, `split('.')[0]` is the whole string. -/
theorem headD_splitOnDot_no_dot (a : List Char) (ha : '.' ∉ a) :
    (splitOnDot a).headD [] = a := by
  induction a with
  | nil => rfl
  | cons c a ih =>
    have hc : c ≠ '.' := fun h => ha (h ▸ List.mem_cons_self c a)
    have ha' : '.' ∉ a := fun h => ha (List.mem_cons_of_mem c h)
    unfold splitOnDot
    simp only [hc, if_false]
    have hne := splitOnDot_ne_nil a
    cases hsp : splitOnDot a with
    | nil => exact absurd hsp hne
    | cons h t =>
      rw [hsp] at ih
      simp only [List.headD_cons] at ih ⊢
      rw [ih ha']

namespace ManifestFilter

/-! ### Characterization of the common-codecs intersection loop -/

/-- After the first period, `commonLoop` intersects: membership is membership
in the accumulator and in every remaining period's set. -/
theorem contains_commonLoop_false (ps : List Period) (C : VariantCodecSummarySet)
    (c : VariantCodecSummary) :
    (commonLoop C false ps).contains c = true ↔
      C.contains c = true ∧
        ∀ p ∈ ps, (VariantCodecSummarySet.fromVariants p.variants).contains c = true := by
  induction ps generalizing C with
  | nil => simp [commonLoop]
  | cons p rest ih =>
    simp only [commonLoop, if_false, Bool.false_eq_true]
    rw [ih]
    rw [VariantCodecSummarySet.contains_iff_mem, VariantCodecSummarySet.mem_onlyKeep,
      ← VariantCodecSummarySet.contains_iff_mem]
    simp only [List.mem_cons]
    constructor
    · rintro ⟨⟨h1, h2⟩, h3⟩
      exact ⟨h1, fun q hq => hq.elim (fun he => he ▸ h2) (h3 q)⟩
    · rintro ⟨h1, h2⟩
      exact ⟨⟨h1, h2 p (Or.inl rfl)⟩, fun q hq => h2 q (Or.inr hq)⟩

/-- The common set computed by `filterByCommonCodecs` over a non-empty period
list contains a summary iff every period's summary set contains it. -/
theorem contains_commonLoop (p : Period) (rest : List Period)
    (c : VariantCodecSummary) :
    (commonLoop ⟨[]⟩ true (p :: rest)).contains c = true ↔
      ∀ q ∈ p :: rest,
        (VariantCodecSummarySet.fromVariants q.variants).contains c = true := by
  have hstep : commonLoop ⟨[]⟩ true (p :: rest) =
      commonLoop (VariantCodecSummarySet.includeAll ⟨[]⟩
        (VariantCodecSummarySet.fromVariants p.variants)) false rest := rfl
  rw [hstep, contains_commonLoop_false]
  rw [VariantCodecSummarySet.contains_iff_mem, VariantCodecSummarySet.mem_includeAll,
    ← VariantCodecSummarySet.contains_iff_mem]
  simp only [List.mem_cons]
  constructor
  · rintro ⟨h1, h2⟩
    rcases h1 with h1 | h1
    · simp [VariantCodecSummarySet.contains] at h1
    · exact fun q hq => hq.elim
        (fun he => he ▸ ((VariantCodecSummarySet.contains_iff_mem _ _).mpr h1)) (h2 q)
  · rintro h
    refine ⟨Or.inr ?_, fun q hq => h q (Or.inr hq)⟩
    exact (VariantCodecSummarySet.contains_iff_mem _ _).mp (h p (Or.inl rfl))

/-- The Boolean form of `contains_commonLoop`, for rewriting filter
predicates. -/
theorem commonLoop_contains_eq_all (ps : List Period) (hne : ps ≠ [])
    (c : VariantCodecSummary) :
    (commonLoop ⟨[]⟩ true ps).contains c =
      ps.all (fun q => (VariantCodecSummarySet.fromVariants q.variants).contains c) := by
  obtain ⟨p, rest, rfl⟩ := List.exists_cons_of_ne_nil hne
  rw [Bool.eq_iff_iff, contains_commonLoop, List.all_eq_true]

/-- C1: after `filterByCommonCodecs`, each period's variant list is exactly
the subsequence of its old list whose summary is contained in every period's
summary set; a variant remains in period `i` iff it was there and its summary
belongs to every period's set (including period `i`'s own). -/
theorem filterByCommonCodecs_keeps_common (m m' : Manifest)
    (h : filterByCommonCodecs m = some m') :
    m'.periods.length = m.periods.length ∧
    (∀ i (hi : i < m.periods.length) (hi' : i < m'.periods.length),
      (m'.periods.get ⟨i, hi'⟩).variants =
        (m.periods.get ⟨i, hi⟩).variants.filter (fun v =>
          m.periods.all (fun q =>
            (VariantCodecSummarySet.fromVariants q.variants).contains
              (VariantCodecSummary.ofVariant v)))) ∧
    (∀ i (hi : i < m.periods.length) (hi' : i < m'.periods.length) (v : Variant),
      v ∈ (m'.periods.get ⟨i, hi'⟩).variants ↔
        (v ∈ (m.periods.get ⟨i, hi⟩).variants ∧
          ∀ q ∈ m.periods,
            (VariantCodecSummarySet.fromVariants q.variants).contains
              (VariantCodecSummary.ofVariant v) = true)) := by
  unfold filterByCommonCodecs at h
  by_cases hlen : m.periods.length > 0
  case neg => simp [hlen] at h
  rw [if_pos hlen, Option.some.injEq] at h
  have hne : m.periods ≠ [] := by
    intro hnil
    rw [hnil] at hlen
    exact absurd hlen (by simp)
  have hpred : (fun v => (commonLoop ⟨[]⟩ true m.periods).contains
        (VariantCodecSummary.ofVariant v)) =
      (fun v => m.periods.all (fun q =>
        (VariantCodecSummarySet.fromVariants q.variants).contains
          (VariantCodecSummary.ofVariant v))) :=
    funext (fun v => commonLoop_contains_eq_all m.periods hne _)
  have hper : m'.periods = m.periods.map (fun period =>
      { period with
        variants := period.variants.filter (fun v =>
          m.periods.all (fun q =>
            (VariantCodecSummarySet.fromVariants q.variants).contains
              (VariantCodecSummary.ofVariant v))) }) := by
    rw [← h]
    simp only [hpred]
  refine ⟨by rw [hper, List.length_map], ?_, ?_⟩
  · intro i hi hi'
    simp only [hper, List.get_eq_getElem, List.getElem_map]
  · intro i hi hi' v
    simp only [hper, List.get_eq_getElem, List.getElem_map, List.mem_filter,
      List.all_eq_true]

end ManifestFilter

/-! ### Sample data for witnesses -/

/-- AAC audio stream, profile 2. -/
def audioStreamA : Stream :=
  { mimeType := "audio/mp4".toList, codecs := "mp4a.40.2".toList }

/-- AAC audio stream, profile 5 (same codec base as `audioStreamA`). -/
def audioStreamB : Stream :=
  { mimeType := "audio/mp4".toList, codecs := "mp4a.40.5".toList }

/-- H.264 video stream, baseline profile. -/
def videoStreamA : Stream :=
  { mimeType := "video/mp4".toList, codecs := "avc1.42E01E".toList }

/-- H.264 video stream, main profile (same codec base as `videoStreamA`). -/
def videoStreamB : Stream :=
  { mimeType := "video/mp4".toList, codecs := "avc1.4D401F".toList }

/-- VP9 video stream in WebM (incompatible base with the H.264 streams). -/
def videoStreamC : Stream :=
  { mimeType := "video/webm".toList, codecs := "vp9".toList }

/-- H.264 + AAC variant. -/
def variantA : Variant :=
  { audio := some audioStreamA, video := some videoStreamA, bandwidth := 100 }

/-- H.264 + AAC variant differing from `variantA` only in profile suffixes. -/
def variantB : Variant :=
  { audio := some audioStreamB, video := some videoStreamB, bandwidth := 200 }

/-- Video-only VP9 variant. -/
def variantC : Variant :=
  { audio := none, video := some videoStreamC, bandwidth := 300 }

/-- First sample period: an H.264 variant and a VP9 variant. -/
def periodOne : Period :=
  { startTime := 0, variants := [variantA, variantC], textStreams := [] }

/-- Second sample period: only an H.264 variant. -/
def periodTwo : Period :=
  { startTime := 10, variants := [variantB], textStreams := [] }

/-- Sample two-period manifest. -/
def sampleManifest : Manifest :=
  { periods := [periodOne, periodTwo], minBufferTime := 2 }

/-- `sampleManifest` after `filterByCommonCodecs`: the VP9 variant is gone. -/
def sampleFiltered : Manifest :=
  { periods := [{ periodOne with variants := [variantA] },
                { periodTwo with variants := [variantB] }],
    minBufferTime := 2 }

namespace ManifestFilter

/-- Witness for C1 at the sample manifest. -/
theorem filterByCommonCodecs_keeps_common_witness :
    filterByCommonCodecs sampleManifest = some sampleFiltered ∧
      sampleFiltered.periods.length = sampleManifest.periods.length :=
  ⟨by decide, (filterByCommonCodecs_keeps_common sampleManifest sampleFiltered
    (by decide)).1⟩

/-- C5: `equals` is reflexive, symmetric and transitive; it coincides with
structural equality of the four fields (so an absent field compares equal only
to absent); each codec field is the part of the stream's codecs string
strictly before the first dot, and the two sample H.264 variants, whose codecs
strings differ only after the first dot, have equal summaries while the
video-only VP9 variant's summary differs from the H.264 one. -/
theorem variantCodecSummary_equality_spec :
    (∀ a : VariantCodecSummary, a.equals a = true) ∧
    (∀ a b : VariantCodecSummary, a.equals b = b.equals a) ∧
    (∀ a b c : VariantCodecSummary,
      a.equals b = true → b.equals c = true → a.equals c = true) ∧
    (∀ a b : VariantCodecSummary, a.equals b = true ↔ a = b) ∧
    (∀ (v : Variant) (s : Stream) (base suffix : List Char), v.video = some s →
      s.codecs = base ++ '.' :: suffix → '.' ∉ base →
      (VariantCodecSummary.ofVariant v).videoCodec_ = some base) ∧
    (∀ (v : Variant) (s : Stream) (base suffix : List Char), v.audio = some s →
      s.codecs = base ++ '.' :: suffix → '.' ∉ base →
      (VariantCodecSummary.ofVariant v).audioCodec_ = some base) ∧
    (VariantCodecSummary.ofVariant variantA).equals
      (VariantCodecSummary.ofVariant variantB) = true ∧
    (VariantCodecSummary.ofVariant variantC).equals
      (VariantCodecSummary.ofVariant variantA) = false ∧
    (VariantCodecSummary.ofVariant
        { audio := some audioStreamA, video := some videoStreamA,
          bandwidth := 100 }).equals
      (VariantCodecSummary.ofVariant
        { audio := some audioStreamA, video := some videoStreamB,
          bandwidth := 100 }) = true := by
  refine ⟨?_, ?_, ?_, VariantCodecSummary.equals_iff_eq, ?_, ?_, by decide, by decide,
    by decide⟩
  · intro a
    exact (VariantCodecSummary.equals_iff_eq a a).mpr rfl
  · intro a b
    rw [Bool.eq_iff_iff, VariantCodecSummary.equals_iff_eq,
      VariantCodecSummary.equals_iff_eq]
    exact eq_comm
  · intro a b c hab hbc
    rw [VariantCodecSummary.equals_iff_eq] at hab hbc ⊢
    exact hab.trans hbc
  · intro v s base suffix hv hs hbase
    simp [VariantCodecSummary.ofVariant, hv, hs]
    rw [splitOnDot_append base suffix hbase]
    rfl
  · intro v s base suffix hv hs hbase
    simp [VariantCodecSummary.ofVariant, hv, hs]
    rw [splitOnDot_append base suffix hbase]
    rfl

/-- Witness for C5: the transitivity and codec-base conjuncts applied at
concrete inputs. -/
theorem variantCodecSummary_equality_spec_witness :
    (variantA.video = some videoStreamA ∧
      videoStreamA.codecs = "avc1".toList ++ '.' :: "42E01E".toList ∧
      '.' ∉ "avc1".toList) ∧
    (VariantCodecSummary.ofVariant variantA).videoCodec_ = some "avc1".toList :=
  ⟨⟨rfl, by decide, by decide⟩,
    variantCodecSummary_equality_spec.2.2.2.2.1 variantA videoStreamA
      "avc1".toList "42E01E".toList rfl (by decide) (by decide)⟩

/-- C6: self-intersection and self-union are no-ops, and the set built from
an empty variant list contains nothing. -/
theorem summarySet_self_ops (A : VariantCodecSummarySet) (x : VariantCodecSummary) :
    A.onlyKeep A = A ∧ A.includeAll A = A ∧
      (VariantCodecSummarySet.fromVariants []).contains x = false := by
  refine ⟨?_, ?_, rfl⟩
  · unfold VariantCodecSummarySet.onlyKeep
    cases A with
    | mk l =>
      congr 1
      apply List.filter_eq_self.mpr
      intro y hy
      exact (VariantCodecSummarySet.contains_iff_mem ⟨l⟩ y).mpr hy
  · unfold VariantCodecSummarySet.includeAll
    have key : ∀ (l : List VariantCodecSummary) (s : VariantCodecSummarySet),
        (∀ y ∈ l, s.contains y = true) →
          l.foldl (fun acc item => acc.add item) s = s := by
      intro l
      induction l with
      | nil => intro s _; rfl
      | cons y ys ih =>
        intro s hs
        have hy : s.add y = s := by
          unfold VariantCodecSummarySet.add
          rw [if_pos (hs y (List.mem_cons_self y ys))]
        rw [List.foldl_cons, hy]
        exact ih s (fun z hz => hs z (List.mem_cons_of_mem y hz))
    exact key A.all_ A (fun y hy => (VariantCodecSummarySet.contains_iff_mem A y).mpr hy)

/-- Helper for C7: folding `add` over any list preserves distinctness of the
stored elements. -/
theorem nodup_foldl_add (l : List VariantCodecSummary)
    (s : VariantCodecSummarySet) (hs : s.all_.Nodup) :
    (l.foldl (fun acc item => acc.add item) s).all_.Nodup := by
  induction l generalizing s with
  | nil => exact hs
  | cons y ys ih =>
    rw [List.foldl_cons]
    apply ih
    unfold VariantCodecSummarySet.add
    by_cases hc : s.contains y = true
    · rwa [if_pos hc]
    · rw [if_neg hc]
      have hy : y ∉ s.all_ := fun hmem =>
        hc ((VariantCodecSummarySet.contains_iff_mem s y).mpr hmem)
      exact List.Nodup.append hs (List.nodup_singleton y)
        (List.disjoint_singleton.mpr hy)

/-- C7: `add` inserts only when no equal element is present, so it is
idempotent, and every operation preserves pairwise-distinctness of the
stored elements (`fromVariants` establishes it outright). -/
theorem summarySet_distinct_invariant :
    (∀ (S : VariantCodecSummarySet) (s : VariantCodecSummary),
      S.contains s = true → S.add s = S) ∧
    (∀ (S : VariantCodecSummarySet) (s : VariantCodecSummary),
      (S.add s).add s = S.add s) ∧
    (∀ (S : VariantCodecSummarySet) (s : VariantCodecSummary),
      S.all_.Nodup → (S.add s).all_.Nodup) ∧
    (∀ S T : VariantCodecSummarySet,
      S.all_.Nodup → (S.includeAll T).all_.Nodup) ∧
    (∀ S T : VariantCodecSummarySet,
      S.all_.Nodup → (S.onlyKeep T).all_.Nodup) ∧
    (∀ variants : List Variant,
      (VariantCodecSummarySet.fromVariants variants).all_.Nodup) := by
  have hadd : ∀ (S : VariantCodecSummarySet) (s : VariantCodecSummary),
      S.contains s = true → S.add s = S := by
    intro S s hc
    unfold VariantCodecSummarySet.add
    rw [if_pos hc]
  have haddnodup : ∀ (S : VariantCodecSummarySet) (s : VariantCodecSummary),
      S.all_.Nodup → (S.add s).all_.Nodup := by
    intro S s hS
    have := nodup_foldl_add [s] S hS
    simpa using this
  refine ⟨hadd, ?_, haddnodup, ?_, ?_, ?_⟩
  · intro S s
    apply hadd
    rw [VariantCodecSummarySet.contains_iff_mem, VariantCodecSummarySet.mem_add]
    exact Or.inr rfl
  · intro S T hS
    exact nodup_foldl_add T.all_ S hS
  · intro S T hS
    exact List.Nodup.filter _ hS
  · intro variants
    have hfold : VariantCodecSummarySet.fromVariants variants =
        (variants.map VariantCodecSummary.ofVariant).foldl
          (fun acc item => acc.add item) ⟨[]⟩ := by
      unfold VariantCodecSummarySet.fromVariants
      rw [List.foldl_map]
    rw [hfold]
    exact nodup_foldl_add _ ⟨[]⟩ List.nodup_nil

/-- C8: the zero-period assertion of `filterByCommonCodecs` fires exactly on
zero-period manifests; with at least one period the function completes
normally. -/
theorem filterByCommonCodecs_assertion (m : Manifest) :
    (m.periods = [] → filterByCommonCodecs m = none) ∧
    (m.periods ≠ [] → (filterByCommonCodecs m).isSome = true) := by
  constructor
  · intro hnil
    unfold filterByCommonCodecs
    rw [if_neg]
    rw [hnil]
    simp
  · intro hne
    unfold filterByCommonCodecs
    rw [if_pos (List.length_pos.mpr hne)]
    rfl

/-- Witness for C8: the assertion fires on an empty manifest and does not on
the sample manifest. -/
theorem filterByCommonCodecs_assertion_witness :
    filterByCommonCodecs { periods := [], minBufferTime := 0 } = none ∧
      (filterByCommonCodecs sampleManifest).isSome = true :=
  ⟨(filterByCommonCodecs_assertion { periods := [], minBufferTime := 0 }).1 rfl,
    (filterByCommonCodecs_assertion sampleManifest).2 (by decide)⟩

/-! ### Step lemmas for `rollingFilter` -/

/-- Unfolding `rollingFilter` when the injected filter fails on the head
period. -/
theorem rollingFilter_cons_error {E : Type} (f : Period → Period × Option E)
    (prev : Option VariantCodecSummarySet) (p : Period) (rest : List Period)
    (q : Period) (e : E) (hf : f (pruneOpt prev p) = (q, some e)) :
    rollingFilter f prev (p :: rest) = (q :: rest, [pruneOpt prev p], some e) := by
  simp only [rollingFilter]
  rw [hf]

/-- Unfolding `rollingFilter` when the injected filter succeeds on the head
period. -/
theorem rollingFilter_cons_ok {E : Type} (f : Period → Period × Option E)
    (prev : Option VariantCodecSummarySet) (p : Period) (rest : List Period)
    (q : Period) (hf : f (pruneOpt prev p) = (q, none)) :
    rollingFilter f prev (p :: rest) =
      (q :: (rollingFilter f
          (some (VariantCodecSummarySet.fromVariants q.variants)) rest).1,
        pruneOpt prev p :: (rollingFilter f
          (some (VariantCodecSummarySet.fromVariants q.variants)) rest).2.1,
        (rollingFilter f
          (some (VariantCodecSummarySet.fromVariants q.variants)) rest).2.2) := by
  simp only [rollingFilter]
  rw [hf]

/-- The `previous` set in effect when `rollingFilter` reaches position `i`,
expressed from the starting set and the post-filter periods: the starting set
for position 0, the summary set of the immediately preceding post-filter
period after that. -/
def prevSetAt (prev : Option VariantCodecSummarySet) (qs : List Period) :
    Nat → Option VariantCodecSummarySet
  | 0 => prev
  | i + 1 =>
    some (VariantCodecSummarySet.fromVariants ((qs[i]?.map Period.variants).getD []))

/-- `prevSetAt` steps through a cons. -/
theorem prevSetAt_cons (prev : Option VariantCodecSummarySet) (q : Period)
    (qs : List Period) (i : Nat) :
    prevSetAt prev (q :: qs) (i + 1) =
      prevSetAt (some (VariantCodecSummarySet.fromVariants q.variants)) qs i := by
  cases i with
  | zero => simp [prevSetAt]
  | succ j => simp [prevSetAt]

/-- Characterization of a successful `rollingFilter` run: the output and the
trace have one entry per period; entry `i` of the trace is period `i` pruned
against the summary set of post-filter period `i - 1` (the starting set for
`i = 0`), and the injected filter maps it to output period `i` without
failing. -/
theorem rollingFilter_ok_spec {E : Type} (f : Period → Period × Option E) :
    ∀ (ps : List Period) (prev : Option VariantCodecSummarySet)
      (qs tr : List Period),
      rollingFilter f prev ps = (qs, tr, none) →
      qs.length = ps.length ∧ tr.length = ps.length ∧
      ∀ i (hi : i < ps.length) (hq : i < qs.length) (ht : i < tr.length),
        tr.get ⟨i, ht⟩ = pruneOpt (prevSetAt prev qs i) (ps.get ⟨i, hi⟩) ∧
        f (tr.get ⟨i, ht⟩) = (qs.get ⟨i, hq⟩, none) := by
  intro ps
  induction ps with
  | nil =>
    intro prev qs tr h
    injection h with h1 h23
    injection h23 with h2 h3
    subst h1
    subst h2
    exact ⟨rfl, rfl, fun i hi => absurd hi (Nat.not_lt_zero i)⟩
  | cons p rest ih =>
    intro prev qs tr h
    rcases hf : f (pruneOpt prev p) with ⟨filtered, err⟩
    cases err with
    | some e =>
      rw [rollingFilter_cons_error f prev p rest filtered e hf] at h
      injection h with h1 h23
      injection h23 with h2 h3
      exact absurd h3 (by simp)
    | none =>
      rcases hrec : rollingFilter f
          (some (VariantCodecSummarySet.fromVariants filtered.variants)) rest with
        ⟨qs', tr', err'⟩
      rw [rollingFilter_cons_ok f prev p rest filtered hf, hrec] at h
      injection h with h1 h23
      injection h23 with h2 h3
      subst h1
      subst h2
      subst h3
      obtain ⟨hlen, hlent, hspec⟩ := ih _ qs' tr' hrec
      refine ⟨by simp [hlen], by simp [hlent], ?_⟩
      intro i hi hq ht
      cases i with
      | zero => exact ⟨rfl, hf⟩
      | succ j =>
        have hj : j < rest.length := Nat.lt_of_succ_lt_succ hi
        have hjq : j < qs'.length := Nat.lt_of_succ_lt_succ hq
        have hjt : j < tr'.length := Nat.lt_of_succ_lt_succ ht
        obtain ⟨e1, e2⟩ := hspec j hj hjq hjt
        constructor
        · show tr'.get ⟨j, hjt⟩ =
            pruneOpt (prevSetAt prev (filtered :: qs') (j + 1)) (rest.get ⟨j, hj⟩)
          rw [prevSetAt_cons]
          exact e1
        · show f (tr'.get ⟨j, hjt⟩) = (qs'.get ⟨j, hjq⟩, none)
          exact e2

end ManifestFilter

/-- Single-variant H.264 period. -/
def periodA : Period := { startTime := 0, variants := [variantA], textStreams := [] }

/-- Single-variant VP9 period (no codec overlap with `periodA`). -/
def periodC : Period := { startTime := 10, variants := [variantC], textStreams := [] }

/-- Another single-variant H.264 period, later in the timeline. -/
def periodA2 : Period := { startTime := 20, variants := [variantA], textStreams := [] }

/-- `periodC` with its variants pruned away. -/
def periodCEmpty : Period := { startTime := 10, variants := [], textStreams := [] }

/-- `periodA2` with its variants pruned away. -/
def periodA2Empty : Period := { startTime := 20, variants := [], textStreams := [] }

namespace ManifestFilter

/-- C2: on a successful run from the initial "none" sentinel, `rollingFilter`
hands period 0 to the injected filter unpruned; for `i + 1` it hands over
period `i + 1` pruned against the summary set of post-filter period `i` alone;
and each output period is what the injected filter made of the handed-over
period, recomputed per iteration. -/
theorem rollingFilter_adjacency_steps {E : Type} (f : Period → Period × Option E)
    (ps qs tr : List Period) (h : rollingFilter f none ps = (qs, tr, none)) :
    qs.length = ps.length ∧ tr.length = ps.length ∧
    (∀ (h0 : 0 < ps.length) (h0t : 0 < tr.length),
      tr.get ⟨0, h0t⟩ = ps.get ⟨0, h0⟩) ∧
    (∀ i (hi : i + 1 < ps.length) (hq : i < qs.length) (ht : i + 1 < tr.length),
      tr.get ⟨i + 1, ht⟩ =
        prunePeriod
          (VariantCodecSummarySet.fromVariants (qs.get ⟨i, hq⟩).variants)
          (ps.get ⟨i + 1, hi⟩)) ∧
    (∀ i (hi : i < ps.length) (hq : i < qs.length) (ht : i < tr.length),
      f (tr.get ⟨i, ht⟩) = (qs.get ⟨i, hq⟩, none)) := by
  obtain ⟨hl, hlt, hspec⟩ := rollingFilter_ok_spec f ps none qs tr h
  refine ⟨hl, hlt, ?_, ?_, fun i hi hq ht => (hspec i hi hq ht).2⟩
  · intro h0 h0t
    have h0q : 0 < qs.length := by rw [hl]; exact h0
    have := (hspec 0 h0 h0q h0t).1
    simpa [prevSetAt, pruneOpt] using this
  · intro i hi hq ht
    have hiq : i + 1 < qs.length := by rw [hl]; exact hi
    have := (hspec (i + 1) hi hiq ht).1
    rw [this]
    have hgi : qs[i]? = some (qs.get ⟨i, hq⟩) := by
      rw [List.getElem?_eq_getElem hq]
      simp [List.get_eq_getElem]
    simp [prevSetAt, hgi, pruneOpt]

/-- Witness for C2: a two-period run where the second period is pruned to
empty against the first period's post-filter set. -/
theorem rollingFilter_adjacency_steps_witness :
    rollingFilter (fun p => (p, (none : Option Unit))) none [periodA, periodC] =
      ([periodA, periodCEmpty], [periodA, periodCEmpty], none) ∧
    ([periodA, periodCEmpty] : List Period).length =
      ([periodA, periodC] : List Period).length :=
  ⟨by decide, (rollingFilter_adjacency_steps (fun p => (p, (none : Option Unit)))
    [periodA, periodC] [periodA, periodCEmpty] [periodA, periodCEmpty]
    (by decide)).1⟩

/-- C4: if the injected filter fails, it failed at some position `k`: the
filter was invoked exactly `k + 1` times, every period after `k` is returned
exactly as it was handed in, and the whole outcome (including the error)
coincides with running `rollingFilter` on just the first `k + 1` periods, so
periods up to `k` were pruned and filtered as normal and period `k` was
adjacency-pruned and handed to the filter. -/
theorem rollingFilter_failure {E : Type} (f : Period → Period × Option E) :
    ∀ (ps : List Period) (prev : Option VariantCodecSummarySet)
      (qs tr : List Period) (e : E),
      rollingFilter f prev ps = (qs, tr, some e) →
      ∃ k, ∃ (hk : k < ps.length),
        qs.length = ps.length ∧
        tr.length = k + 1 ∧
        qs.drop (k + 1) = ps.drop (k + 1) ∧
        rollingFilter f prev (ps.take (k + 1)) = (qs.take (k + 1), tr, some e) := by
  intro ps
  induction ps with
  | nil =>
    intro prev qs tr e h
    injection h with h1 h23
    injection h23 with h2 h3
    exact absurd h3 (by simp)
  | cons p rest ih =>
    intro prev qs tr e h
    rcases hf : f (pruneOpt prev p) with ⟨filtered, err⟩
    cases err with
    | some e' =>
      rw [rollingFilter_cons_error f prev p rest filtered e' hf] at h
      injection h with h1 h23
      injection h23 with h2 h3
      injection h3 with h3
      subst h1
      subst h2
      subst h3
      refine ⟨0, Nat.succ_pos _, by simp, rfl, by simp, ?_⟩
      show rollingFilter f prev [p] = ([filtered], [pruneOpt prev p], some e')
      rw [rollingFilter_cons_error f prev p [] filtered e' hf]
    | none =>
      rcases hrec : rollingFilter f
          (some (VariantCodecSummarySet.fromVariants filtered.variants)) rest with
        ⟨qs', tr', err'⟩
      rw [rollingFilter_cons_ok f prev p rest filtered hf, hrec] at h
      injection h with h1 h23
      injection h23 with h2 h3
      subst h1
      subst h2
      subst h3
      obtain ⟨k, hk, hlen, hlent, hdrop, htake⟩ := ih _ qs' tr' e hrec
      refine ⟨k + 1, Nat.succ_lt_succ hk, by simp [hlen], by simp [hlent], ?_, ?_⟩
      · show qs'.drop (k + 1) = rest.drop (k + 1)
        exact hdrop
      · show rollingFilter f prev (p :: rest.take (k + 1)) =
          (filtered :: qs'.take (k + 1), pruneOpt prev p :: tr', some e)
        rw [rollingFilter_cons_ok f prev p (rest.take (k + 1)) filtered hf, htake]

/-- The sample injected filter for the failure witness: rejects any period
whose start time is 10. -/
def failAtTen (p : Period) : Period × Option Unit :=
  if p.startTime = 10 then (p, some ()) else (p, none)

/-- Witness for C4: a filter failing on the (pruned) second of three periods
leaves the third period untouched. -/
theorem rollingFilter_failure_witness :
    rollingFilter failAtTen none [periodA, periodC, periodA2] =
      ([periodA, periodCEmpty, periodA2], [periodA, periodCEmpty], some ()) ∧
    ∃ k, ∃ (hk : k < ([periodA, periodC, periodA2] : List Period).length),
      ([periodA, periodCEmpty, periodA2] : List Period).length =
        ([periodA, periodC, periodA2] : List Period).length ∧
      ([periodA, periodCEmpty] : List Period).length = k + 1 ∧
      ([periodA, periodCEmpty, periodA2] : List Period).drop (k + 1) =
        ([periodA, periodC, periodA2] : List Period).drop (k + 1) ∧
      rollingFilter failAtTen none (([periodA, periodC, periodA2] :
          List Period).take (k + 1)) =
        (([periodA, periodCEmpty, periodA2] : List Period).take (k + 1),
          [periodA, periodCEmpty], some ()) :=
  ⟨by decide, rollingFilter_failure failAtTen [periodA, periodC, periodA2] none
    [periodA, periodCEmpty, periodA2] [periodA, periodCEmpty] () (by decide)⟩

/-- A successful run restarted after position `k`: dropping the first `k + 1`
periods and starting from post-filter period `k`'s summary set reproduces the
tail of the run. -/
theorem rollingFilter_ok_drop {E : Type} (f : Period → Period × Option E) :
    ∀ (ps : List Period) (prev : Option VariantCodecSummarySet)
      (qs tr : List Period),
      rollingFilter f prev ps = (qs, tr, none) →
      ∀ k (hk : k < ps.length) (hkq : k < qs.length),
        rollingFilter f
          (some (VariantCodecSummarySet.fromVariants (qs.get ⟨k, hkq⟩).variants))
          (ps.drop (k + 1)) = (qs.drop (k + 1), tr.drop (k + 1), none) := by
  intro ps
  induction ps with
  | nil =>
    intro prev qs tr h k hk
    exact absurd hk (Nat.not_lt_zero k)
  | cons p rest ih =>
    intro prev qs tr h k hk hkq
    rcases hf : f (pruneOpt prev p) with ⟨filtered, err⟩
    cases err with
    | some e =>
      rw [rollingFilter_cons_error f prev p rest filtered e hf] at h
      injection h with h1 h23
      injection h23 with h2 h3
      exact absurd h3 (by simp)
    | none =>
      rcases hrec : rollingFilter f
          (some (VariantCodecSummarySet.fromVariants filtered.variants)) rest with
        ⟨qs', tr', err'⟩
      rw [rollingFilter_cons_ok f prev p rest filtered hf, hrec] at h
      injection h with h1 h23
      injection h23 with h2 h3
      subst h1
      subst h2
      subst h3
      cases k with
      | zero => exact hrec
      | succ k' =>
        have hk' : k' < rest.length := Nat.lt_of_succ_lt_succ hk
        have hkq' : k' < qs'.length := Nat.lt_of_succ_lt_succ hkq
        exact ih _ qs' tr' hrec k' hk' hkq'

/-- Once `previous` is the empty summary set, a successful remainder of the
run (under a filter that never adds variants) ends with every period's
variant list empty. -/
theorem rollingFilter_empty_prev {E : Type} (f : Period → Period × Option E)
    (hf : ∀ p : Period, ((f p).1).variants.Sublist p.variants) :
    ∀ (ps qs tr : List Period),
      rollingFilter f (some (VariantCodecSummarySet.fromVariants [])) ps =
        (qs, tr, none) →
      ∀ q ∈ qs, q.variants = [] := by
  intro ps
  induction ps with
  | nil =>
    intro qs tr h
    injection h with h1 h23
    subst h1
    intro q hq
    exact absurd hq (List.not_mem_nil q)
  | cons p rest ih =>
    intro qs tr h
    have hpruned : (pruneOpt (some (VariantCodecSummarySet.fromVariants []))
        p).variants = [] := by
      apply List.filter_eq_nil_iff.mpr
      intro a _
      simp [VariantCodecSummarySet.contains, VariantCodecSummarySet.fromVariants]
    rcases hfp : f (pruneOpt (some (VariantCodecSummarySet.fromVariants [])) p) with
      ⟨filtered, err⟩
    have hfv : filtered.variants = [] := by
      have := hf (pruneOpt (some (VariantCodecSummarySet.fromVariants [])) p)
      rw [hfp] at this
      rw [hpruned] at this
      exact List.sublist_nil.mp this
    cases err with
    | some e =>
      rw [rollingFilter_cons_error f _ p rest filtered e hfp] at h
      injection h with h1 h23
      injection h23 with h2 h3
      exact absurd h3 (by simp)
    | none =>
      rcases hrec : rollingFilter f
          (some (VariantCodecSummarySet.fromVariants filtered.variants)) rest with
        ⟨qs', tr', err'⟩
      rw [rollingFilter_cons_ok f _ p rest filtered hfp, hrec] at h
      injection h with h1 h23
      injection h23 with h2 h3
      subst h1
      subst h3
      rw [hfv] at hrec
      intro q hq
      rcases List.mem_cons.mp hq with rfl | hq'
      · exact hfv
      · exact ih qs' tr' hrec q hq'

/-- C3: under a filter that never adds variants, if post-filter period `k` of
a completed run has no variants, every later period (and `k` itself) ends with
no variants. -/
theorem rollingFilter_cascading_empty {E : Type} (f : Period → Period × Option E)
    (hf : ∀ p : Period, ((f p).1).variants.Sublist p.variants)
    (ps qs tr : List Period) (h : rollingFilter f none ps = (qs, tr, none))
    (k : Nat) (hk : k < qs.length) (hkp : k < ps.length)
    (hempty : (qs.get ⟨k, hk⟩).variants = [])
    (j : Nat) (hj : j < qs.length) (hkj : k ≤ j) :
    (qs.get ⟨j, hj⟩).variants = [] := by
  rcases Nat.eq_or_lt_of_le hkj with heq | hlt
  · subst heq
    exact hempty
  · have hdrop := rollingFilter_ok_drop f ps none qs tr h k hkp hk
    rw [hempty] at hdrop
    have hmem : qs.get ⟨j, hj⟩ ∈ qs.drop (k + 1) := by
      obtain ⟨m, rfl⟩ : ∃ m, j = k + 1 + m := ⟨j - (k + 1), by omega⟩
      have hm : m < (qs.drop (k + 1)).length := by
        rw [List.length_drop]
        omega
      have hget : (qs.drop (k + 1)).get ⟨m, hm⟩ = qs.get ⟨k + 1 + m, hj⟩ := by
        simp [List.getElem_drop]
      rw [← hget]
      exact List.get_mem _ _ hm
    exact rollingFilter_empty_prev f hf _ _ _ hdrop _ hmem

/-- Witness for C3: three periods where the second is emptied by adjacency
pruning; the third ends empty as well. -/
theorem rollingFilter_cascading_empty_witness :
    (∀ p : Period,
      (((fun q => (q, (none : Option Unit))) p).1).variants.Sublist p.variants) ∧
    rollingFilter (fun q => (q, (none : Option Unit))) none
        [periodA, periodC, periodA2] =
      ([periodA, periodCEmpty, periodA2Empty],
        [periodA, periodCEmpty, periodA2Empty], none) ∧
    (([periodA, periodCEmpty, periodA2Empty] : List Period).get
      ⟨2, by decide⟩).variants = [] :=
  ⟨fun p => List.Sublist.refl p.variants, by decide,
    rollingFilter_cascading_empty (fun q => (q, (none : Option Unit)))
      (fun p => List.Sublist.refl p.variants)
      [periodA, periodC, periodA2] [periodA, periodCEmpty, periodA2Empty]
      [periodA, periodCEmpty, periodA2Empty] (by decide)
      1 (by decide) (by decide) (by decide) 2 (by decide) (by decide)⟩

/-- Witness for C7: adding a summary equal to a stored one changes nothing,
and `includeAll` keeps the stored elements pairwise distinct. -/
theorem summarySet_distinct_invariant_witness :
    ((⟨[VariantCodecSummary.ofVariant variantA]⟩ :
        VariantCodecSummarySet).contains (VariantCodecSummary.ofVariant variantB) =
          true ∧
      (⟨[VariantCodecSummary.ofVariant variantA]⟩ :
        VariantCodecSummarySet).add (VariantCodecSummary.ofVariant variantB) =
        ⟨[VariantCodecSummary.ofVariant variantA]⟩) ∧
    ([VariantCodecSummary.ofVariant variantA].Nodup ∧
      ((⟨[VariantCodecSummary.ofVariant variantA]⟩ :
        VariantCodecSummarySet).includeAll
          ⟨[VariantCodecSummary.ofVariant variantA]⟩).all_.Nodup) :=
  ⟨⟨by decide, summarySet_distinct_invariant.1 _ _ (by decide)⟩,
    ⟨by decide, summarySet_distinct_invariant.2.2.2.1 _ _ (by decide)⟩⟩

/-- Frame relation between an output period and an input period: everything
but the variant list is unchanged, and the variant list is a subsequence of
the old one (relative order kept, no new variants). -/
def PeriodFrame (q p : Period) : Prop :=
  q.startTime = p.startTime ∧ q.textStreams = p.textStreams ∧
    q.variants.Sublist p.variants

/-- `pruneOpt` only narrows the variant list. -/
theorem pruneOpt_frame (prev : Option VariantCodecSummarySet) (p : Period) :
    PeriodFrame (pruneOpt prev p) p := by
  cases prev with
  | none => exact ⟨rfl, rfl, List.Sublist.refl _⟩
  | some s => exact ⟨rfl, rfl, List.filter_sublist _⟩

/-- C9: both filters keep the period count, keep every period's non-variant
fields and the manifest's other field, and replace each variant list with a
subsequence of itself (for `rollingFilter`, provided the injected filter does
the same), whether or not the injected filter fails. -/
theorem manifestFilter_frame :
    (∀ m m' : Manifest, filterByCommonCodecs m = some m' →
      m'.minBufferTime = m.minBufferTime ∧
      m'.periods.length = m.periods.length ∧
      ∀ i (hi : i < m.periods.length) (hi' : i < m'.periods.length),
        PeriodFrame (m'.periods.get ⟨i, hi'⟩) (m.periods.get ⟨i, hi⟩)) ∧
    (∀ (E : Type) (f : Period → Period × Option E),
      (∀ p : Period, PeriodFrame (f p).1 p) →
      ∀ (ps : List Period) (prev : Option VariantCodecSummarySet)
        (qs tr : List Period) (err : Option E),
        rollingFilter f prev ps = (qs, tr, err) →
        qs.length = ps.length ∧
        ∀ i (hi : i < ps.length) (hq : i < qs.length),
          PeriodFrame (qs.get ⟨i, hq⟩) (ps.get ⟨i, hi⟩)) := by
  constructor
  · intro m m' h
    unfold filterByCommonCodecs at h
    by_cases hlen : m.periods.length > 0
    case neg => simp [hlen] at h
    rw [if_pos hlen, Option.some.injEq] at h
    subst h
    refine ⟨rfl, by simp, ?_⟩
    intro i hi hi'
    simp only [List.get_eq_getElem, List.getElem_map]
    exact ⟨rfl, rfl, List.filter_sublist _⟩
  · intro E f hf ps
    induction ps with
    | nil =>
      intro prev qs tr err h
      injection h with h1 h23
      subst h1
      exact ⟨rfl, fun i hi => absurd hi (Nat.not_lt_zero i)⟩
    | cons p rest ih =>
      intro prev qs tr err h
      have hhead : ∀ filtered (err0 : Option E),
          f (pruneOpt prev p) = (filtered, err0) → PeriodFrame filtered p := by
        intro filtered err0 hfp
        have h1 := hf (pruneOpt prev p)
        rw [hfp] at h1
        have h2 := pruneOpt_frame prev p
        exact ⟨h1.1.trans h2.1, h1.2.1.trans h2.2.1, h1.2.2.trans h2.2.2⟩
      rcases hfp : f (pruneOpt prev p) with ⟨filtered, err0⟩
      cases err0 with
      | some e =>
        rw [rollingFilter_cons_error f prev p rest filtered e hfp] at h
        injection h with h1 h23
        injection h23 with h2 h3
        subst h1
        refine ⟨by simp, ?_⟩
        intro i hi hq
        cases i with
        | zero => exact hhead filtered (some e) hfp
        | succ j => exact ⟨rfl, rfl, List.Sublist.refl _⟩
      | none =>
        rcases hrec : rollingFilter f
            (some (VariantCodecSummarySet.fromVariants filtered.variants)) rest with
          ⟨qs', tr', err'⟩
        rw [rollingFilter_cons_ok f prev p rest filtered hfp, hrec] at h
        injection h with h1 h23
        injection h23 with h2 h3
        subst h1
        obtain ⟨hlen, hspec⟩ := ih _ qs' tr' err' hrec
        refine ⟨by simp [hlen], ?_⟩
        intro i hi hq
        cases i with
        | zero => exact hhead filtered none hfp
        | succ j =>
          exact hspec j (Nat.lt_of_succ_lt_succ hi) (Nat.lt_of_succ_lt_succ hq)

/-- Witness for C9: the common-codecs filter on the sample manifest and a
rolling filter with an identity injected filter. -/
theorem manifestFilter_frame_witness :
    (filterByCommonCodecs sampleManifest = some sampleFiltered ∧
      sampleFiltered.minBufferTime = sampleManifest.minBufferTime) ∧
    ((∀ p : Period, PeriodFrame ((fun q => (q, (none : Option Unit))) p).1 p) ∧
      ([periodA, periodCEmpty] : List Period).length =
        ([periodA, periodC] : List Period).length) :=
  ⟨⟨by decide, (manifestFilter_frame.1 sampleManifest sampleFiltered (by decide)).1⟩,
    ⟨fun p => ⟨rfl, rfl, List.Sublist.refl _⟩,
      (manifestFilter_frame.2 Unit (fun q => (q, none))
        (fun p => ⟨rfl, rfl, List.Sublist.refl _⟩)
        [periodA, periodC] none [periodA, periodCEmpty] [periodA, periodCEmpty]
        none (by decide)).1⟩⟩

/-- C10: on a zero-period manifest the rolling filter completes successfully,
never invokes the injected filter (empty trace) and leaves the period list
unchanged, while `filterByCommonCodecs` rejects the same manifest. -/
theorem rollingFilter_no_precondition {E : Type} (f : Period → Period × Option E)
    (m : Manifest) (hm : m.periods = []) :
    rollingFilter f none m.periods = ([], [], none) ∧
      filterByCommonCodecs m = none := by
  constructor
  · rw [hm]
    rfl
  · unfold filterByCommonCodecs
    rw [hm]
    simp

/-- Witness for C10 at the empty manifest. -/
theorem rollingFilter_no_precondition_witness :
    (Manifest.mk [] 0).periods = [] ∧
    (rollingFilter (fun p => (p, (none : Option Unit))) none
        (Manifest.mk [] 0).periods = ([], [], none) ∧
      filterByCommonCodecs (Manifest.mk [] 0) = none) :=
  ⟨rfl, rollingFilter_no_precondition (fun p => (p, (none : Option Unit)))
    (Manifest.mk [] 0) rfl⟩

end ManifestFilter

end Shaka
